import Mathlib

/-! The request queue of `ISkill` (src/skills/ISkill.h)

A shallow embedding of the base class `ISkill`: its data members, its two
constructors and the five protected queue operations `HaveRequests`,
`ActiveRequest`, `PushRequest`, `PopRequest` and `PopAllRequests`.

Every member function becomes a function from the instance before the call to
an `Outcome`: the returned value, the instance after the call, and the list of
delegates the call itself invoked, in order.  The heap is not modelled: a
`Request *` in the list is represented by the `Request` value it points to.
-/

/-- Modelled from the spec: utils/ParamsMap.h is not among the sources; the
parameter bag is "an opaque, copyable, key-to-value mapping". -/
abbrev ParamsMap := List (String × String)

/-- Modelled from the spec: utils/UniqueID.h is not among the sources; the
identity of an instance is "a process-unique identifier". -/
abbrev GUID := Nat

namespace ISkill

/-- The enum `ISkill::SkillState`. -/
inductive SkillState where
  | INACTIVE
  | ACTIVE
  | BLOCKED
  | COMPLETED
  | FAILED
  deriving DecidableEq, Repr

/-- Modelled from the spec: utils/Delegate.h is not among the sources; a
delegate is "an optional/nullable function handle" where "invalid means
empty/unset".  A bound delegate is identified by the number of its target. -/
inductive SkillDelegate where
  | unset
  | bound (target : Nat)
  deriving DecidableEq, Repr

/-- Modelled from the spec: `Delegate::IsValid`, true exactly for a handle that
is not empty/unset. -/
def SkillDelegate.IsValid : SkillDelegate → Bool
  | .unset => false
  | .bound _ => true

/-- The struct `ISkill::Request`: its constructor stores both arguments. -/
structure Request where
  m_Callback : SkillDelegate
  m_Params : ParamsMap
  deriving DecidableEq, Repr

end ISkill

/-- The data members of `ISkill`, with the identifier that `NewGUID()` sets. -/
structure ISkill where
  m_GUID : GUID
  m_bEnabled : Bool
  m_SkillName : String
  m_eState : ISkill.SkillState
  m_Requests : List ISkill.Request
  deriving DecidableEq, Repr

namespace ISkill

/-- What `m_Callback( this )` does to the instance it is handed, for each
delegate: the bodies of the callbacks belong to the callers and are a
parameter of the model. -/
abbrev Invoke := SkillDelegate → ISkill → ISkill

/-- The result of a member function call: the value returned, the instance
afterwards, and the delegates the call invoked, oldest first. -/
structure Outcome (α : Type) where
  ret : α
  self : ISkill
  invoked : List SkillDelegate

/-- The constructor `ISkill()`; `a_GUID` is the identifier `NewGUID()` yields. -/
def ctor (a_GUID : GUID) : ISkill :=
  { m_GUID := a_GUID, m_bEnabled := true, m_SkillName := "",
    m_eState := SkillState.INACTIVE, m_Requests := [] }

/-- The constructor `ISkill( const ISkill & a_Copy )`; `a_GUID` is the
identifier `NewGUID()` yields. -/
def copyCtor (a_Copy : ISkill) (a_GUID : GUID) : ISkill :=
  { m_GUID := a_GUID, m_bEnabled := a_Copy.m_bEnabled, m_SkillName := a_Copy.m_SkillName,
    m_eState := SkillState.INACTIVE, m_Requests := [] }

/-- The statement `delete pRequest`: the destructor of `Request` releases the
delegate and the parameters and calls nothing, so the list of invoked
delegates is handed on as it is. -/
def Request.delete (_pRequest : Request) (invoked : List SkillDelegate) : List SkillDelegate :=
  invoked

/-- `ISkill::ActiveRequest`. -/
def ActiveRequest (s : ISkill) : Outcome (Option Request) :=
  if h : s.m_Requests ≠ [] then
    { ret := some (s.m_Requests.head h), self := s, invoked := [] }
  else
    { ret := none, self := s, invoked := [] }

/-- `ISkill::HaveRequests`. -/
def HaveRequests (s : ISkill) : Outcome Bool :=
  let r := s.ActiveRequest
  { ret := r.ret.isSome, self := r.self, invoked := r.invoked }

/-- `ISkill::PushRequest`. -/
def PushRequest (s : ISkill) (a_Callback : SkillDelegate) (a_Params : ParamsMap) :
    Outcome Bool :=
  let bFirstRequest := decide (s.m_Requests = [])
  { ret := bFirstRequest,
    self := { s with m_Requests := s.m_Requests ++ [Request.mk a_Callback a_Params] },
    invoked := [] }

/-- `ISkill::PopRequest`.  `pop_front` is `List.tail`, applied to the list as
the callback left it.  The function follows the code as long as the callback
leaves the queued entries in place (it may push more, see `AppendsOnly`): a
callback that removes entries makes `delete pRequest` and `pop_front` act on
an entry that is gone, which the code does not define and of which this
function says nothing. -/
def PopRequest (call : Invoke) (s : ISkill) : Outcome Bool :=
  let body : ISkill × List SkillDelegate :=
    if h : s.m_Requests ≠ [] then
      let pRequest := s.m_Requests.head h
      let called : ISkill × List SkillDelegate :=
        if pRequest.m_Callback.IsValid then
          (call pRequest.m_Callback s, [pRequest.m_Callback])
        else
          (s, [])
      let invoked := Request.delete pRequest called.2
      ({ called.1 with m_Requests := called.1.m_Requests.tail }, invoked)
    else
      (s, [])
  { ret := decide (body.1.m_Requests ≠ []), self := body.1, invoked := body.2 }

/-- `ISkill::PopAllRequests`: the loop deletes every entry, then the list is
cleared. -/
def PopAllRequests (s : ISkill) : Outcome Unit :=
  let invoked := s.m_Requests.foldl (fun acc pRequest => Request.delete pRequest acc) []
  { ret := (), self := { s with m_Requests := [] }, invoked := invoked }

/-- A callback environment is not re-entrant when no callback changes the
request list of the instance it is handed. -/
def NonReentrant (call : Invoke) : Prop :=
  ∀ d s, (call d s).m_Requests = s.m_Requests

/-- The environment in which every callback leaves the instance alone. -/
def idle : Invoke := fun _ s => s

/-- One call of a queue operation. -/
inductive Op where
  | push (a_Callback : SkillDelegate) (a_Params : ParamsMap)
  | pop
  | popAll
  | haveRequests
  | activeRequest
  deriving DecidableEq, Repr

/-- The value an operation of `Op` returned. -/
inductive Value where
  | bool (b : Bool)
  | request (r : Option Request)
  | void
  deriving DecidableEq, Repr

/-- Performs one operation. -/
def step (call : Invoke) (s : ISkill) : Op → Outcome Value
  | .push cb p =>
    let r := s.PushRequest cb p
    { ret := .bool r.ret, self := r.self, invoked := r.invoked }
  | .pop =>
    let r := s.PopRequest call
    { ret := .bool r.ret, self := r.self, invoked := r.invoked }
  | .popAll =>
    let r := s.PopAllRequests
    { ret := .void, self := r.self, invoked := r.invoked }
  | .haveRequests =>
    let r := s.HaveRequests
    { ret := .bool r.ret, self := r.self, invoked := r.invoked }
  | .activeRequest =>
    let r := s.ActiveRequest
    { ret := .request r.ret, self := r.self, invoked := r.invoked }

/-- Performs a sequence of operations one after the other, collecting the
returned values and the invoked delegates in order. -/
def run (call : Invoke) (s : ISkill) : List Op → Outcome (List Value)
  | [] => { ret := [], self := s, invoked := [] }
  | op :: ops =>
    let r := step call s op
    let rs := run call r.self ops
    { ret := r.ret :: rs.ret, self := rs.self, invoked := r.invoked ++ rs.invoked }

/-- The calls that push the given requests in order. -/
def pushes (reqs : List Request) : List Op :=
  reqs.map (fun r => Op.push r.m_Callback r.m_Params)

/-- The calls that pop `n` times. -/
def pops (n : Nat) : List Op :=
  List.replicate n Op.pop

/-- The values `n` pops return when they drain a queue of `n` entries: true
while entries remain behind the popped one, false for the last. -/
def hasMoreSeq : Nat → List Value
  | 0 => []
  | n + 1 => Value.bool (decide (n ≠ 0)) :: hasMoreSeq n

/-- The values the pushes of `n` requests onto an empty queue return: true for
the first, false for the others. -/
def isFirstSeq : Nat → List Value
  | 0 => []
  | n + 1 => Value.bool true :: List.replicate n (Value.bool false)

/-- A callback environment that is not re-entrant but does write to the
instance: every callback marks the skill as completed. -/
def marksCompleted : Invoke := fun _ s => { s with m_eState := SkillState.COMPLETED }

/-- Sample request A, with a valid delegate and one parameter. -/
def sampleA : Request := { m_Callback := .bound 1, m_Params := [("text", "hello")] }

/-- Sample request B, with a valid delegate. -/
def sampleB : Request := { m_Callback := .bound 2, m_Params := [] }

/-- Sample request C, with a valid delegate. -/
def sampleC : Request := { m_Callback := .bound 3, m_Params := [("gesture", "wave")] }

/-- Sample request whose delegate is unset. -/
def sampleUnset : Request := { m_Callback := .unset, m_Params := [("text", "bye")] }

/-- A sample instance in state FAILED holding the given requests. -/
def sampleFailed (q : List Request) : ISkill :=
  { m_GUID := 42, m_bEnabled := true, m_SkillName := "say", m_eState := SkillState.FAILED,
    m_Requests := q }

/-- `ISkill::GetState`. -/
def GetState (s : ISkill) : SkillState :=
  s.m_eState

/-- Copy construction seen from both sides: the source `a_Copy`, which the
constructor takes by const reference and only reads, and the new instance. -/
structure Copied where
  source : ISkill
  copy : ISkill

/-- The constructor `ISkill( const ISkill & a_Copy )` together with the source
it leaves behind. -/
def copyConstruct (a_Copy : ISkill) (a_GUID : GUID) : Copied :=
  { source := a_Copy, copy := copyCtor a_Copy a_GUID }

/-- Modelled from the spec: utils/UniqueID.h is not among the sources; the
generator of "a process-unique identifier, freshly generated" is a supply that
has handed out the identifiers below `issued` and no others. -/
structure GuidSupply where
  issued : Nat
  deriving DecidableEq, Repr

/-- Modelled from the spec: `NewGUID()` of utils/UniqueID.h, which is not among
the sources: it yields an identifier the process has not handed out before,
here the next one of the supply. -/
def NewGUID (u : GuidSupply) : GUID × GuidSupply :=
  (u.issued, { issued := u.issued + 1 })

/-- The identifier `g` was handed out by the supply at some earlier time. -/
def GuidSupply.Issued (u : GuidSupply) (g : GUID) : Prop :=
  g < u.issued

instance (u : GuidSupply) (g : GUID) : Decidable (u.Issued g) :=
  inferInstanceAs (Decidable (g < u.issued))

/-- Modelled from the spec: a scalar of the persisted record (`Json::Value` is
not among the sources). -/
inductive JsonScalar where
  | null
  | bool (b : Bool)
  | string (s : String)
  deriving DecidableEq, Repr

/-- Modelled from the spec: the persisted record, "a structured document with
at least fields enabled: bool, skillName: string", as a list of named members
in which the first member of a name is the one in force. -/
abbrev JsonRecord := List (String × JsonScalar)

/-- Modelled from the spec: reading the member `key` of a record. -/
def JsonRecord.get (json : JsonRecord) (key : String) : Option JsonScalar :=
  (json.find? (fun m => m.1 == key)).map (fun m => m.2)

/-- Modelled from the spec: the assignment `json[key] = v`, which replaces the
member `key` and leaves the other members alone. -/
def JsonRecord.set (json : JsonRecord) (key : String) (v : JsonScalar) : JsonRecord :=
  (key, v) :: json.filter (fun m => !(m.1 == key))

/-- Modelled from the spec: `ISkill::Serialize`, of which the header only has
the declaration: it "serializes enabled and name to a structured record", into
the members "enabled" and "skillName"; state and queue are not written. -/
def Serialize (s : ISkill) (json : JsonRecord) : JsonRecord :=
  (json.set "enabled" (.bool s.m_bEnabled)).set "skillName" (.string s.m_SkillName)

/-- Modelled from the spec: `ISkill::Deserialize`, of which the header only has
the declaration: it "deserializes the same two fields back, leaving any
unspecified fields at their defaults", and touches neither state nor queue. -/
def Deserialize (s : ISkill) (json : JsonRecord) : ISkill :=
  let s1 : ISkill :=
    match json.get "enabled" with
    | some (.bool b) => { s with m_bEnabled := b }
    | _ => s
  match json.get "skillName" with
  | some (.string n) => { s1 with m_SkillName := n }
  | _ => s1

/-- The requests that the pushes among `ops` submit, in order. -/
def pushedRequests : List Op → List Request
  | [] => []
  | .push cb p :: ops => { m_Callback := cb, m_Params := p } :: pushedRequests ops
  | .pop :: ops => pushedRequests ops
  | .popAll :: ops => pushedRequests ops
  | .haveRequests :: ops => pushedRequests ops
  | .activeRequest :: ops => pushedRequests ops

/-- True for `PushRequest` and `PopRequest` calls. -/
def Op.isPushOrPop : Op → Bool
  | .push _ _ => true
  | .pop => true
  | _ => false

/-- The number of `PopRequest` calls among `ops` that find the queue non-empty
when the operations are performed from `s` on. -/
def popsOnNonEmpty (call : Invoke) (s : ISkill) : List Op → Nat
  | [] => 0
  | op :: ops =>
    (if op = Op.pop ∧ s.m_Requests ≠ [] then 1 else 0) +
      popsOnNonEmpty call (step call s op).self ops

/-- The delegates of the requests of `q` whose delegate is valid, in order. -/
def validCallbacks (q : List Request) : List SkillDelegate :=
  (q.filter (fun r => r.m_Callback.IsValid)).map (fun r => r.m_Callback)

/-- No callback touches the instance it is handed. -/
def Untouched (call : Invoke) : Prop :=
  ∀ d x, call d x = x

/-- A callback environment for the re-entrant case: every callback calls
`PushRequest( cb, p )` once on the instance it is handed. -/
def pushesAgain (cb : SkillDelegate) (p : ParamsMap) : Invoke :=
  fun _ x => (x.PushRequest cb p).self

/-- As `pushesAgain`, and the callback notes the value its `PushRequest` call
returned in `m_bEnabled`, where it can be read once the pop is over. -/
def pushesAgainNoting (cb : SkillDelegate) (p : ParamsMap) : Invoke :=
  fun _ x =>
    let inner := x.PushRequest cb p
    { inner.self with m_bEnabled := inner.ret }

/-- A sample instance in state ACTIVE, disabled, holding the given requests. -/
def sampleActive (q : List Request) : ISkill :=
  { m_GUID := 3, m_bEnabled := false, m_SkillName := "wave", m_eState := SkillState.ACTIVE,
    m_Requests := q }

/-- A sample interleaving of pushes and pops: a pop on the empty queue, two
pushes (the second with an unset delegate), three pops, two pushes, one pop. -/
def sampleInterleaving : List Op :=
  [.pop, .push (.bound 1) [], .push .unset [], .pop, .pop, .pop,
    .push (.bound 2) [], .push (.bound 1) [], .pop]

/-- A sample sequence of operations of all five kinds. -/
def sampleMixed : List Op :=
  [.pop, .push (.bound 5) [], .haveRequests, .popAll, .push (.bound 6) [], .activeRequest,
    .pop, .pop]

/-- The callbacks leave the queued entries in place: all a callback does to the
request list of the instance it is handed is to push further requests behind
the ones queued, if it does anything.  Callbacks that are not re-entrant and
callbacks that call `PushRequest` are of this kind. -/
def AppendsOnly (call : Invoke) : Prop :=
  ∀ d s, ∃ extra, (call d s).m_Requests = s.m_Requests ++ extra

/-- The requests that the callback run by a `PopRequest` on `s` pushes: the
entries it leaves behind those that were queued when it was called.  None when
the queue is empty or the front delegate is invalid, as no callback runs. -/
def pushedByCallback (call : Invoke) (s : ISkill) : List Request :=
  match s.m_Requests with
  | [] => []
  | r :: _ =>
    if r.m_Callback.IsValid then
      (call r.m_Callback s).m_Requests.drop s.m_Requests.length
    else
      []

/-- The requests submitted by one operation performed on `s`: the request of a
`PushRequest` call, and what the callback run by a `PopRequest` call pushes. -/
def admittedBy (call : Invoke) (s : ISkill) : Op → List Request
  | .push cb p => [{ m_Callback := cb, m_Params := p }]
  | .pop => pushedByCallback call s
  | _ => []

/-- The requests submitted while `ops` are performed from `s` on, in order of
submission, by the operations themselves or by the callbacks they run. -/
def admittedRequests (call : Invoke) (s : ISkill) : List Op → List Request
  | [] => []
  | op :: ops => admittedBy call s op ++ admittedRequests call (step call s op).self ops

end ISkill

namespace ISkill

/-! Shared lemmas -/

/-- On an empty list `PopRequest` skips its body. -/
theorem PopRequest_of_nil (call : Invoke) (s : ISkill) (hs : s.m_Requests = []) :
    PopRequest call s = { ret := false, self := s, invoked := [] } := by
  simp [PopRequest, hs]

/-- On a list with front `r`, `PopRequest` calls the delegate of `r` when it is
valid and then drops the front of the list the callback left. -/
theorem PopRequest_of_cons (call : Invoke) (s : ISkill) (r : Request) (rest : List Request)
    (hs : s.m_Requests = r :: rest) :
    PopRequest call s =
      if r.m_Callback.IsValid then
        { ret := decide ((call r.m_Callback s).m_Requests.tail ≠ []),
          self := { call r.m_Callback s with
                      m_Requests := (call r.m_Callback s).m_Requests.tail },
          invoked := [r.m_Callback] }
      else
        { ret := decide (rest ≠ []), self := { s with m_Requests := rest }, invoked := [] } := by
  by_cases hv : r.m_Callback.IsValid = true
  · simp [PopRequest, hs, hv, Request.delete]
  · simp [PopRequest, hs, hv, Request.delete]

/-- Deleting the entries of a list one by one invokes nothing. -/
theorem foldl_delete (q : List Request) (acc : List SkillDelegate) :
    q.foldl (fun acc pRequest => Request.delete pRequest acc) acc = acc := by
  induction q generalizing acc with
  | nil => rfl
  | cons r q ih => simp [Request.delete]

/-- Running two sequences of operations in a row. -/
theorem run_append (call : Invoke) (s : ISkill) (xs ys : List Op) :
    run call s (xs ++ ys) =
      { ret := (run call s xs).ret ++ (run call (run call s xs).self ys).ret,
        self := (run call (run call s xs).self ys).self,
        invoked := (run call s xs).invoked ++ (run call (run call s xs).self ys).invoked } := by
  induction xs generalizing s with
  | nil => simp [run]
  | cons x xs ih => simp [run, ih]

/-- A single pop with callbacks that are not re-entrant: the entry removed is
the front one, and its delegate is the only one that can have been invoked. -/
theorem PopRequest_nonReentrant (call : Invoke) (hcall : NonReentrant call) (s : ISkill)
    (r : Request) (rest : List Request) (hs : s.m_Requests = r :: rest) :
    (PopRequest call s).self.m_Requests = rest ∧
    (PopRequest call s).invoked = (if r.m_Callback.IsValid then [r.m_Callback] else []) ∧
    (PopRequest call s).ret = decide (rest ≠ []) := by
  rw [PopRequest_of_cons call s r rest hs]
  by_cases hv : r.m_Callback.IsValid = true
  · simp [hv, hcall r.m_Callback s, hs]
  · simp [hv]

/-- A single pop with callbacks that leave the queued entries in place: the
entry removed is the front one, what remains is the former tail followed by
what the callback pushed, and the delegate of the front entry is the only one
that can have been invoked. -/
theorem PopRequest_appendsOnly (call : Invoke) (hcall : AppendsOnly call) (s : ISkill)
    (r : Request) (rest : List Request) (hs : s.m_Requests = r :: rest) :
    (PopRequest call s).self.m_Requests = rest ++ pushedByCallback call s ∧
    (PopRequest call s).invoked = (if r.m_Callback.IsValid then [r.m_Callback] else []) := by
  rw [PopRequest_of_cons call s r rest hs]
  by_cases hv : r.m_Callback.IsValid = true
  · obtain ⟨extra, he⟩ := hcall r.m_Callback s
    rw [hs] at he
    simp [hv, pushedByCallback, hs, he]
  · simp [hv, pushedByCallback, hs]

/-- Pushing a list of requests appends them in order and invokes nothing. -/
theorem run_pushes (call : Invoke) (reqs : List Request) (s : ISkill) :
    (run call s (pushes reqs)).self = { s with m_Requests := s.m_Requests ++ reqs } ∧
    (run call s (pushes reqs)).invoked = [] := by
  induction reqs generalizing s with
  | nil => simp [pushes, run]
  | cons r reqs ih =>
    have h := ih (s.PushRequest r.m_Callback r.m_Params).self
    simp [pushes, PushRequest] at h
    simpa [pushes, run, step, PushRequest] using h

/-- Pushes onto a queue that already holds an entry all return false. -/
theorem run_pushes_ret_of_ne_nil (call : Invoke) (reqs : List Request) (s : ISkill)
    (hs : s.m_Requests ≠ []) :
    (run call s (pushes reqs)).ret = List.replicate reqs.length (Value.bool false) := by
  induction reqs generalizing s with
  | nil => simp [pushes, run]
  | cons r reqs ih =>
    have h := ih (s.PushRequest r.m_Callback r.m_Params).self (by simp [PushRequest])
    simp [pushes, PushRequest] at h
    simp [pushes, run, step, h, PushRequest, hs, List.replicate_succ]

/-- Pushes onto an empty queue return true once, then false. -/
theorem run_pushes_ret_of_nil (call : Invoke) (reqs : List Request) (s : ISkill)
    (hs : s.m_Requests = []) :
    (run call s (pushes reqs)).ret = isFirstSeq reqs.length := by
  cases reqs with
  | nil => simp [pushes, run, isFirstSeq]
  | cons r reqs =>
    have h := run_pushes_ret_of_ne_nil call reqs (s.PushRequest r.m_Callback r.m_Params).self
      (by simp [PushRequest])
    simp [pushes, PushRequest, hs] at h
    simp [pushes, run, step, h, PushRequest, hs, isFirstSeq]

/-- With callbacks that are not re-entrant, `n` pops remove the first `n`
entries and invoke the valid delegates among them, in queue order. -/
theorem run_pops (call : Invoke) (hcall : NonReentrant call) (n : Nat) (s : ISkill) :
    (run call s (pops n)).self.m_Requests = s.m_Requests.drop n ∧
    (run call s (pops n)).invoked =
      ((s.m_Requests.take n).filter (fun r => r.m_Callback.IsValid)).map (fun r => r.m_Callback) := by
  induction n generalizing s with
  | zero => simp [pops, run]
  | succ n ih =>
    have h := ih (PopRequest call s).self
    simp only [pops] at h
    cases hq : s.m_Requests with
    | nil =>
      rw [PopRequest_of_nil call s hq] at h
      simp [pops, run, step, List.replicate_succ, h, hq, PopRequest_of_nil call s hq]
    | cons r rest =>
      obtain ⟨h1, h2, _⟩ := PopRequest_nonReentrant call hcall s r rest hq
      rw [h1] at h
      by_cases hv : r.m_Callback.IsValid = true
      · simp [pops, run, step, List.replicate_succ, h, h2, hv]
      · simp [pops, run, step, List.replicate_succ, h, h2, hv]

/-- With callbacks that are not re-entrant, draining a queue pop by pop returns
true as long as entries remain behind the popped one. -/
theorem run_pops_ret (call : Invoke) (hcall : NonReentrant call) (q : List Request)
    (s : ISkill) (hs : s.m_Requests = q) :
    (run call s (pops q.length)).ret = hasMoreSeq q.length := by
  induction q generalizing s with
  | nil => simp [pops, run, hasMoreSeq]
  | cons r rest ih =>
    obtain ⟨h1, _, h3⟩ := PopRequest_nonReentrant call hcall s r rest hs
    have h := ih (PopRequest call s).self h1
    simp only [pops] at h
    simp [pops, run, step, List.replicate_succ, h, h3, hasMoreSeq]

/-! The claims -/

/-- C1 (FIFO order): when N requests with valid delegates are pushed onto an
empty queue and N pops follow, with callbacks that are not re-entrant, the
delegates invoked are exactly those of the N requests, once each and in push
order, and the queue is empty at the end; the pushes return true, false, ...
and the pops return true, ..., true, false. -/
theorem fifo_order (call : Invoke) (hcall : NonReentrant call) (s : ISkill)
    (hs : s.m_Requests = []) (reqs : List Request)
    (hvalid : ∀ r ∈ reqs, r.m_Callback.IsValid = true) :
    (run call s (pushes reqs ++ pops reqs.length)).invoked =
        reqs.map (fun r => r.m_Callback) ∧
    (run call s (pushes reqs ++ pops reqs.length)).self.m_Requests = [] ∧
    (run call s (pushes reqs ++ pops reqs.length)).ret =
        isFirstSeq reqs.length ++ hasMoreSeq reqs.length := by
  obtain ⟨hself, hinv⟩ := run_pushes call reqs s
  have hq : (run call s (pushes reqs)).self.m_Requests = reqs := by simp [hself, hs]
  obtain ⟨hdrop, hcalls⟩ := run_pops call hcall reqs.length (run call s (pushes reqs)).self
  have hret := run_pops_ret call hcall reqs (run call s (pushes reqs)).self hq
  have hfilter : reqs.filter (fun r => r.m_Callback.IsValid) = reqs :=
    List.filter_eq_self.mpr hvalid
  rw [run_append]
  refine ⟨?_, ?_, ?_⟩
  · simp [hinv, hcalls, hq, hfilter]
  · simp [hdrop, hq]
  · simp [hret, run_pushes_ret_of_nil call reqs s hs]

/-- Witness of C1: A, B and C pushed onto a fresh instance and popped three
times, with callbacks that mark the skill completed. -/
theorem fifo_order_witness :
    (ctor 7).m_Requests = [] ∧
    (run marksCompleted (ctor 7)
        (pushes [sampleA, sampleB, sampleC] ++ pops 3)).invoked =
      [SkillDelegate.bound 1, SkillDelegate.bound 2, SkillDelegate.bound 3] ∧
    (run marksCompleted (ctor 7)
        (pushes [sampleA, sampleB, sampleC] ++ pops 3)).self.m_Requests = [] ∧
    (run marksCompleted (ctor 7)
        (pushes [sampleA, sampleB, sampleC] ++ pops 3)).ret =
      [Value.bool true, Value.bool false, Value.bool false,
        Value.bool true, Value.bool true, Value.bool false] :=
  ⟨rfl, fifo_order marksCompleted (fun _ _ => rfl) (ctor 7) rfl [sampleA, sampleB, sampleC]
    (by decide)⟩

/-- C2 (first-push signal): `PushRequest` returns true exactly when the queue
was empty before the push, and false exactly when it was not. -/
theorem first_push_signal (s : ISkill) (cb : SkillDelegate) (p : ParamsMap) :
    ((s.PushRequest cb p).ret = true ↔ s.m_Requests = []) ∧
    ((s.PushRequest cb p).ret = false ↔ s.m_Requests ≠ []) := by
  simp [PushRequest]

/-- C3 (pop cardinality): on a queue with front `r` and tail `rest`, whatever
the state of the skill, one `PopRequest` with callbacks that are not re-entrant
invokes at most one delegate, and only that of `r`; afterwards the queue is
`rest`, one entry shorter than before. -/
theorem pop_cardinality (call : Invoke) (hcall : NonReentrant call) (s : ISkill)
    (r : Request) (rest : List Request) (hs : s.m_Requests = r :: rest) :
    (PopRequest call s).invoked.length ≤ 1 ∧
    (∀ d ∈ (PopRequest call s).invoked, d = r.m_Callback) ∧
    (PopRequest call s).invoked = (if r.m_Callback.IsValid then [r.m_Callback] else []) ∧
    (PopRequest call s).self.m_Requests = rest ∧
    (PopRequest call s).self.m_Requests.length + 1 = s.m_Requests.length := by
  obtain ⟨h1, h2, _⟩ := PopRequest_nonReentrant call hcall s r rest hs
  refine ⟨?_, ?_, h2, h1, ?_⟩
  · rw [h2]; split <;> simp
  · rw [h2]; split <;> simp
  · rw [h1, hs]; simp

/-- Witness of C3: a pop on a FAILED skill holding A, B and an unset request. -/
theorem pop_cardinality_witness :
    (sampleFailed [sampleA, sampleB, sampleUnset]).m_Requests =
      sampleA :: [sampleB, sampleUnset] ∧
    (PopRequest marksCompleted (sampleFailed [sampleA, sampleB, sampleUnset])).invoked.length
      ≤ 1 ∧
    (∀ d ∈ (PopRequest marksCompleted (sampleFailed [sampleA, sampleB, sampleUnset])).invoked,
      d = sampleA.m_Callback) ∧
    (PopRequest marksCompleted (sampleFailed [sampleA, sampleB, sampleUnset])).invoked =
      (if sampleA.m_Callback.IsValid then [sampleA.m_Callback] else []) ∧
    (PopRequest marksCompleted (sampleFailed [sampleA, sampleB, sampleUnset])).self.m_Requests =
      [sampleB, sampleUnset] ∧
    (PopRequest marksCompleted
        (sampleFailed [sampleA, sampleB, sampleUnset])).self.m_Requests.length + 1 =
      (sampleFailed [sampleA, sampleB, sampleUnset]).m_Requests.length :=
  ⟨rfl, pop_cardinality marksCompleted (fun _ _ => rfl)
    (sampleFailed [sampleA, sampleB, sampleUnset]) sampleA [sampleB, sampleUnset] rfl⟩

/-- C4 (hasMore result): with callbacks that leave the queued entries in place
(they may push), `PopRequest` returns true exactly when the queue it leaves
behind is non-empty, that queue being the old one without its front entry,
followed by what the callback pushed; the return value equals what
`HaveRequests` reports right after the call.  When the callbacks are not
re-entrant the queue left behind is the old one without its front, so the
return value is true exactly when the queue held at least two entries before
the call. -/
theorem hasMore_result (call : Invoke) (hcall : AppendsOnly call) (s : ISkill) :
    ((PopRequest call s).ret = true ↔ (PopRequest call s).self.m_Requests ≠ []) ∧
    (PopRequest call s).ret = (HaveRequests (PopRequest call s).self).ret ∧
    (PopRequest call s).self.m_Requests = s.m_Requests.tail ++ pushedByCallback call s ∧
    (NonReentrant call →
      (PopRequest call s).self.m_Requests = s.m_Requests.tail ∧
      ((PopRequest call s).ret = true ↔ 2 ≤ s.m_Requests.length)) := by
  refine ⟨?_, ?_, ?_, ?_⟩
  · simp [PopRequest]
  · cases hq : (PopRequest call s).self.m_Requests with
    | nil =>
      have : (PopRequest call s).ret = false := by
        have h : (PopRequest call s).ret = decide ((PopRequest call s).self.m_Requests ≠ []) := rfl
        rw [h, hq]; simp
      simp [HaveRequests, ActiveRequest, hq, this]
    | cons r rest =>
      have : (PopRequest call s).ret = true := by
        have h : (PopRequest call s).ret = decide ((PopRequest call s).self.m_Requests ≠ []) := rfl
        rw [h, hq]; simp
      simp [HaveRequests, ActiveRequest, hq, this]
  · cases hq : s.m_Requests with
    | nil => simp [PopRequest_of_nil call s hq, hq, pushedByCallback]
    | cons r rest =>
      rw [(PopRequest_appendsOnly call hcall s r rest hq).1]
      rfl
  · intro hnr
    cases hq : s.m_Requests with
    | nil => simp [PopRequest_of_nil call s hq, hq]
    | cons r rest =>
      obtain ⟨h1, _, h3⟩ := PopRequest_nonReentrant call hnr s r rest hq
      rw [h1, h3]
      cases rest <;> simp

/-- Witness of C4: a pop on the queue holding only A, whose callback pushes a
new request, returns true and `HaveRequests` is true afterwards; a pop on the
queue A, B with callbacks that are not re-entrant returns true as well. -/
theorem hasMore_result_witness :
    AppendsOnly (pushesAgain (.bound 9) []) ∧
    ((PopRequest (pushesAgain (.bound 9) []) (sampleFailed [sampleA])).ret = true ↔
      (PopRequest (pushesAgain (.bound 9) []) (sampleFailed [sampleA])).self.m_Requests ≠ []) ∧
    (PopRequest (pushesAgain (.bound 9) []) (sampleFailed [sampleA])).ret =
      (HaveRequests (PopRequest (pushesAgain (.bound 9) []) (sampleFailed [sampleA])).self).ret ∧
    (PopRequest (pushesAgain (.bound 9) []) (sampleFailed [sampleA])).self.m_Requests =
      [{ m_Callback := .bound 9, m_Params := [] }] ∧
    AppendsOnly marksCompleted ∧ NonReentrant marksCompleted ∧
    (PopRequest marksCompleted (sampleFailed [sampleA, sampleB])).self.m_Requests =
      (sampleFailed [sampleA, sampleB]).m_Requests.tail ∧
    ((PopRequest marksCompleted (sampleFailed [sampleA, sampleB])).ret = true ↔
      2 ≤ (sampleFailed [sampleA, sampleB]).m_Requests.length) :=
  ⟨fun _ _ => ⟨_, rfl⟩,
    (hasMore_result (pushesAgain (.bound 9) []) (fun _ _ => ⟨_, rfl⟩)
      (sampleFailed [sampleA])).1,
    (hasMore_result (pushesAgain (.bound 9) []) (fun _ _ => ⟨_, rfl⟩)
      (sampleFailed [sampleA])).2.1,
    (hasMore_result (pushesAgain (.bound 9) []) (fun _ _ => ⟨_, rfl⟩)
      (sampleFailed [sampleA])).2.2.1,
    fun _ _ => ⟨[], (List.append_nil _).symm⟩, fun _ _ => rfl,
    (hasMore_result marksCompleted (fun _ _ => ⟨[], (List.append_nil _).symm⟩)
      (sampleFailed [sampleA, sampleB])).2.2.2 (fun _ _ => rfl)⟩

/-- C5 (drain without invocation): whatever the queue holds, `PopAllRequests`
invokes no delegate and leaves a queue of length 0, so that `HaveRequests`
is false and `ActiveRequest` is none afterwards. -/
theorem drain_without_invocation (s : ISkill) :
    (PopAllRequests s).invoked = [] ∧
    (PopAllRequests s).self.m_Requests.length = 0 ∧
    (HaveRequests (PopAllRequests s).self).ret = false ∧
    (ActiveRequest (PopAllRequests s).self).ret = none := by
  refine ⟨?_, ?_, ?_, ?_⟩
  · simp [PopAllRequests, foldl_delete]
  · simp [PopAllRequests]
  · simp [PopAllRequests, HaveRequests, ActiveRequest]
  · simp [PopAllRequests, ActiveRequest]

/-- C6 (invalid callback skipped): on a queue whose front entry `r` holds an
invalid delegate, `PopRequest` invokes nothing, removes exactly that front
entry and changes nothing else, and returns whether entries remain. -/
theorem invalid_callback_skipped (call : Invoke) (s : ISkill) (r : Request)
    (rest : List Request) (hs : s.m_Requests = r :: rest)
    (hinvalid : r.m_Callback.IsValid = false) :
    (PopRequest call s).invoked = [] ∧
    (PopRequest call s).self = { s with m_Requests := rest } ∧
    (PopRequest call s).self.m_Requests.length + 1 = s.m_Requests.length ∧
    ((PopRequest call s).ret = true ↔ rest ≠ []) := by
  rw [PopRequest_of_cons call s r rest hs]
  simp [hinvalid, hs]

/-- Witness of C6: a pop on a queue whose front delegate is unset, in a
callback environment that would push again if it were called. -/
theorem invalid_callback_skipped_witness :
    (sampleFailed [sampleUnset, sampleA]).m_Requests = sampleUnset :: [sampleA] ∧
    sampleUnset.m_Callback.IsValid = false ∧
    (PopRequest (fun d x => (x.PushRequest d []).self)
        (sampleFailed [sampleUnset, sampleA])).invoked = [] ∧
    (PopRequest (fun d x => (x.PushRequest d []).self)
        (sampleFailed [sampleUnset, sampleA])).self =
      { sampleFailed [sampleUnset, sampleA] with m_Requests := [sampleA] } ∧
    (PopRequest (fun d x => (x.PushRequest d []).self)
        (sampleFailed [sampleUnset, sampleA])).self.m_Requests.length + 1 =
      (sampleFailed [sampleUnset, sampleA]).m_Requests.length ∧
    ((PopRequest (fun d x => (x.PushRequest d []).self)
        (sampleFailed [sampleUnset, sampleA])).ret = true ↔ [sampleA] ≠ []) :=
  ⟨rfl, rfl, invalid_callback_skipped (fun d x => (x.PushRequest d []).self)
    (sampleFailed [sampleUnset, sampleA]) sampleUnset [sampleA] rfl rfl⟩

/-- C7 (pop on an empty queue): `PopRequest` on an empty queue invokes nothing,
leaves the whole instance as it was and returns false. -/
theorem pop_on_empty (call : Invoke) (s : ISkill) (hs : s.m_Requests = []) :
    (PopRequest call s).invoked = [] ∧
    (PopRequest call s).self = s ∧
    (PopRequest call s).ret = false := by
  rw [PopRequest_of_nil call s hs]
  exact ⟨rfl, rfl, rfl⟩

/-- Witness of C7: a pop on a FAILED skill with no requests. -/
theorem pop_on_empty_witness :
    (sampleFailed []).m_Requests = [] ∧
    (PopRequest marksCompleted (sampleFailed [])).invoked = [] ∧
    (PopRequest marksCompleted (sampleFailed [])).self = sampleFailed [] ∧
    (PopRequest marksCompleted (sampleFailed [])).ret = false :=
  ⟨rfl, pop_on_empty marksCompleted (sampleFailed []) rfl⟩

/-- C8 (push appends verbatim at the back): after `PushRequest(cb, p)` the queue
is the old queue followed by one new entry holding `cb` and `p`; the other
data members are untouched and no delegate is invoked. -/
theorem push_appends_at_back (s : ISkill) (cb : SkillDelegate) (p : ParamsMap) :
    (s.PushRequest cb p).self.m_Requests =
      s.m_Requests ++ [{ m_Callback := cb, m_Params := p }] ∧
    (s.PushRequest cb p).self.m_Requests.length = s.m_Requests.length + 1 ∧
    (s.PushRequest cb p).self.m_Requests.take s.m_Requests.length = s.m_Requests ∧
    (s.PushRequest cb p).self =
      { s with m_Requests := s.m_Requests ++ [{ m_Callback := cb, m_Params := p }] } ∧
    (s.PushRequest cb p).invoked = [] := by
  simp [PushRequest]

/-- C9 (HaveRequests): `HaveRequests` is true exactly when the queue is
non-empty, which is exactly when `ActiveRequest` returns an entry; it is true
right after any `PushRequest` and false on a freshly constructed instance. -/
theorem haveRequests_iff_nonempty (s : ISkill) (cb : SkillDelegate) (p : ParamsMap)
    (g : GUID) :
    ((HaveRequests s).ret = true ↔ s.m_Requests ≠ []) ∧
    (s.m_Requests ≠ [] ↔ ∃ r, (ActiveRequest s).ret = some r) ∧
    (HaveRequests (s.PushRequest cb p).self).ret = true ∧
    (HaveRequests (ctor g)).ret = false := by
  refine ⟨?_, ?_, ?_, ?_⟩
  · cases hq : s.m_Requests <;> simp [HaveRequests, ActiveRequest, hq]
  · cases hq : s.m_Requests <;> simp [ActiveRequest, hq]
  · simp [HaveRequests, ActiveRequest, PushRequest]
  · simp [HaveRequests, ActiveRequest, ctor]

/-- C10 (ActiveRequest): `ActiveRequest` returns the front entry of the queue,
or none when the queue is empty, and changes nothing: the instance is the same
afterwards and no delegate is invoked.  With callbacks that are not
re-entrant, after requests were pushed onto an empty queue and `k` pops made,
the front entry is the request pushed at position `k`, the earliest one not
yet popped, if there is one. -/
theorem activeRequest_front (call : Invoke) (s : ISkill) (reqs : List Request) (k : Nat) :
    (ActiveRequest s).ret = s.m_Requests.head? ∧
    (ActiveRequest s).self = s ∧
    (ActiveRequest s).invoked = [] ∧
    (NonReentrant call → s.m_Requests = [] →
      (ActiveRequest (run call s (pushes reqs ++ pops k)).self).ret = reqs[k]?) := by
  have hfront : ∀ x : ISkill, (ActiveRequest x).ret = x.m_Requests.head? := by
    intro x
    cases hq : x.m_Requests <;> simp [ActiveRequest, hq]
  refine ⟨hfront s, ?_, ?_, ?_⟩
  · unfold ActiveRequest; split <;> rfl
  · unfold ActiveRequest; split <;> rfl
  · intro hcall hs
    obtain ⟨hself, _⟩ := run_pushes call reqs s
    obtain ⟨hdrop, _⟩ := run_pops call hcall k (run call s (pushes reqs)).self
    have hq : (run call s (pushes reqs)).self.m_Requests = reqs := by simp [hself, hs]
    rw [hfront, run_append]
    show (run call (run call s (pushes reqs)).self (pops k)).self.m_Requests.head? = reqs[k]?
    rw [hdrop, hq, List.head?_drop]

/-- Witness of C10: after A, B and C were pushed onto a fresh instance and one
pop made, the active request is B. -/
theorem activeRequest_front_witness :
    NonReentrant marksCompleted ∧ (ctor 7).m_Requests = [] ∧
    (ActiveRequest (run marksCompleted (ctor 7)
        (pushes [sampleA, sampleB, sampleC] ++ pops 1)).self).ret =
      [sampleA, sampleB, sampleC][1]? :=
  ⟨fun _ _ => rfl, rfl,
    (activeRequest_front marksCompleted (ctor 7) [sampleA, sampleB, sampleC] 1).2.2.2
      (fun _ _ => rfl) rfl⟩

/-! Lemmas on sequences of operations -/

/-- The valid delegates of a queue, front entry first. -/
theorem validCallbacks_cons (r : Request) (q : List Request) :
    validCallbacks (r :: q) =
      (if r.m_Callback.IsValid then [r.m_Callback] else []) ++ validCallbacks q := by
  by_cases hv : r.m_Callback.IsValid = true <;> simp [validCallbacks, hv]

/-- The valid delegates of two queues in a row. -/
theorem validCallbacks_append (q₁ q₂ : List Request) :
    validCallbacks (q₁ ++ q₂) = validCallbacks q₁ ++ validCallbacks q₂ := by
  simp [validCallbacks]

/-- The state a push leaves behind. -/
theorem step_push_requests (call : Invoke) (s : ISkill) (cb : SkillDelegate) (p : ParamsMap) :
    (step call s (Op.push cb p)).self.m_Requests =
        s.m_Requests ++ [{ m_Callback := cb, m_Params := p }] ∧
    (step call s (Op.push cb p)).invoked = [] := by
  simp [step, PushRequest]

/-- With callbacks that are not re-entrant, an interleaving of pushes and pops
serves a front part of the requests queued and pushed, in order: as many as
there were pops on a non-empty queue. -/
theorem run_push_pop (call : Invoke) (hcall : NonReentrant call) (ops : List Op)
    (hops : ∀ op ∈ ops, op.isPushOrPop = true) (s : ISkill) :
    (run call s ops).invoked =
        validCallbacks ((s.m_Requests ++ pushedRequests ops).take (popsOnNonEmpty call s ops)) ∧
    (run call s ops).self.m_Requests =
        (s.m_Requests ++ pushedRequests ops).drop (popsOnNonEmpty call s ops) ∧
    popsOnNonEmpty call s ops ≤ (s.m_Requests ++ pushedRequests ops).length := by
  induction ops generalizing s with
  | nil => simp [run, popsOnNonEmpty, pushedRequests, validCallbacks]
  | cons op ops ih =>
    have hrest : ∀ o ∈ ops, o.isPushOrPop = true := fun o ho => hops o (List.mem_cons_of_mem _ ho)
    have hop : op.isPushOrPop = true := hops op (List.mem_cons_self _ _)
    cases op with
    | push cb p =>
      obtain ⟨hq, hi⟩ := step_push_requests call s cb p
      obtain ⟨h1, h2, h3⟩ := ih hrest (step call s (Op.push cb p)).self
      rw [hq] at h1 h2 h3
      simp only [List.append_assoc, List.singleton_append] at h1 h2 h3
      refine ⟨?_, ?_, ?_⟩
      · simp only [run, popsOnNonEmpty, pushedRequests, hi]
        simpa using h1
      · simp only [run, popsOnNonEmpty, pushedRequests]
        simpa using h2
      · simp only [popsOnNonEmpty, pushedRequests]
        simpa using h3
    | pop =>
      cases hs : s.m_Requests with
      | nil =>
        have hstep : step call s Op.pop = { ret := Value.bool false, self := s, invoked := [] } := by
          simp [step, PopRequest_of_nil call s hs]
        obtain ⟨h1, h2, h3⟩ := ih hrest s
        rw [hs] at h1 h2 h3
        refine ⟨?_, ?_, ?_⟩
        · simp only [run, popsOnNonEmpty, pushedRequests, hstep, hs]
          simpa using h1
        · simp only [run, popsOnNonEmpty, pushedRequests, hstep, hs]
          simpa using h2
        · simp only [popsOnNonEmpty, pushedRequests, hstep, hs]
          simpa using h3
      | cons r rest =>
        obtain ⟨hq, hi, _⟩ := PopRequest_nonReentrant call hcall s r rest hs
        have hself : (step call s Op.pop).self = (PopRequest call s).self := rfl
        have hinv : (step call s Op.pop).invoked = (PopRequest call s).invoked := rfl
        obtain ⟨h1, h2, h3⟩ := ih hrest (step call s Op.pop).self
        rw [hself, hq] at h1 h2 h3
        refine ⟨?_, ?_, ?_⟩
        · simp only [run, popsOnNonEmpty, pushedRequests, hinv, hi, hself, hs]
          simp [h1, validCallbacks_cons, Nat.add_comm 1]
        · simp only [run, popsOnNonEmpty, pushedRequests, hself, hs]
          simp [h2, Nat.add_comm 1]
        · simp only [popsOnNonEmpty, pushedRequests, hself, hs]
          simp only [List.length_append] at h3
          simp [Nat.add_comm 1]
          omega
    | popAll => simp [Op.isPushOrPop] at hop
    | haveRequests => simp [Op.isPushOrPop] at hop
    | activeRequest => simp [Op.isPushOrPop] at hop

/-- With callbacks that are not re-entrant, whatever operations are performed,
the delegates invoked are, in order, valid delegates of requests that were
queued at the start or pushed since. -/
theorem run_invoked_sublist (call : Invoke) (hcall : NonReentrant call) (ops : List Op)
    (s : ISkill) :
    (run call s ops).invoked.Sublist (validCallbacks (s.m_Requests ++ pushedRequests ops)) := by
  induction ops generalizing s with
  | nil => simp [run]
  | cons op ops ih =>
    cases op with
    | push cb p =>
      obtain ⟨hq, hi⟩ := step_push_requests call s cb p
      have h := ih (step call s (Op.push cb p)).self
      rw [hq] at h
      simp only [run, pushedRequests, hi]
      simpa using h
    | pop =>
      cases hs : s.m_Requests with
      | nil =>
        have hstep : step call s Op.pop = { ret := Value.bool false, self := s, invoked := [] } := by
          simp [step, PopRequest_of_nil call s hs]
        have h := ih s
        rw [hs] at h
        simp only [run, pushedRequests, hstep]
        simpa using h
      | cons r rest =>
        obtain ⟨hq, hi, _⟩ := PopRequest_nonReentrant call hcall s r rest hs
        have hself : (step call s Op.pop).self = (PopRequest call s).self := rfl
        have hinv : (step call s Op.pop).invoked = (PopRequest call s).invoked := rfl
        have h := ih (step call s Op.pop).self
        rw [hself, hq] at h
        simp only [run, pushedRequests, hinv, hi, hself, List.cons_append, validCallbacks_cons]
        exact List.Sublist.append (List.Sublist.refl _) h
    | popAll =>
      have hself : (step call s Op.popAll).self.m_Requests = [] := by simp [step, PopAllRequests]
      have hinv : (step call s Op.popAll).invoked = [] := by
        simp [step, PopAllRequests, foldl_delete]
      have h := ih (step call s Op.popAll).self
      rw [hself] at h
      simp only [run, pushedRequests, hinv, validCallbacks_append, List.nil_append] at h ⊢
      exact List.sublist_append_of_sublist_right h
    | haveRequests =>
      have hself : (step call s Op.haveRequests).self = s := by
        simp only [step, HaveRequests, ActiveRequest]; split <;> rfl
      have hinv : (step call s Op.haveRequests).invoked = [] := by
        simp only [step, HaveRequests, ActiveRequest]; split <;> rfl
      have h := ih s
      simp only [run, pushedRequests, hinv, hself, List.nil_append]
      exact h
    | activeRequest =>
      have hself : (step call s Op.activeRequest).self = s := by
        simp only [step, ActiveRequest]; split <;> rfl
      have hinv : (step call s Op.activeRequest).invoked = [] := by
        simp only [step, ActiveRequest]; split <;> rfl
      have h := ih s
      simp only [run, pushedRequests, hinv, hself, List.nil_append]
      exact h

/-- With callbacks that leave the instance alone, a queue operation changes
none of state, enabled flag, name and identifier. -/
theorem step_frame (call : Invoke) (hcall : Untouched call) (s : ISkill) (op : Op) :
    (step call s op).self.m_eState = s.m_eState ∧
    (step call s op).self.m_bEnabled = s.m_bEnabled ∧
    (step call s op).self.m_SkillName = s.m_SkillName ∧
    (step call s op).self.m_GUID = s.m_GUID := by
  cases op with
  | push cb p => simp [step, PushRequest]
  | pop =>
    cases hs : s.m_Requests with
    | nil => simp [step, PopRequest_of_nil call s hs]
    | cons r rest =>
      simp only [step, PopRequest_of_cons call s r rest hs, hcall r.m_Callback s]
      split <;> simp
  | popAll => simp [step, PopAllRequests]
  | haveRequests => simp only [step, HaveRequests, ActiveRequest]; split <;> simp
  | activeRequest => simp only [step, ActiveRequest]; split <;> simp

/-- With callbacks that leave the instance alone, a sequence of queue operations
changes none of state, enabled flag, name and identifier. -/
theorem run_frame (call : Invoke) (hcall : Untouched call) (ops : List Op) (s : ISkill) :
    (run call s ops).self.m_eState = s.m_eState ∧
    (run call s ops).self.m_bEnabled = s.m_bEnabled ∧
    (run call s ops).self.m_SkillName = s.m_SkillName ∧
    (run call s ops).self.m_GUID = s.m_GUID := by
  induction ops generalizing s with
  | nil => simp [run]
  | cons op ops ih =>
    obtain ⟨h1, h2, h3, h4⟩ := step_frame call hcall s op
    obtain ⟨i1, i2, i3, i4⟩ := ih (step call s op).self
    simp only [run]
    exact ⟨i1.trans h1, i2.trans h2, i3.trans h3, i4.trans h4⟩

/-! The claims, continued -/

/-- C11 (re-entrant push lands behind the popping entry): on a queue
`r :: rest` whose front delegate is valid and whose callback, when invoked,
leaves the request list as a `PushRequest(cb, p)` on the instance does,
`PopRequest` invokes the delegate of `r` and finishes with the queue `rest`
followed by the new request: the entry removed is `r`, and the entries queued
before are still in front of the new one. -/
theorem reentrant_push_lands_behind (call : Invoke) (s : ISkill) (r : Request)
    (rest : List Request) (cb : SkillDelegate) (p : ParamsMap)
    (hs : s.m_Requests = r :: rest) (hvalid : r.m_Callback.IsValid = true)
    (hpush : (call r.m_Callback s).m_Requests = (s.PushRequest cb p).self.m_Requests) :
    (PopRequest call s).self.m_Requests = rest ++ [{ m_Callback := cb, m_Params := p }] ∧
    (PopRequest call s).invoked = [r.m_Callback] ∧
    (PopRequest call s).self.m_Requests.take rest.length = rest ∧
    (PopRequest call s).self.m_Requests.getLast? =
      some { m_Callback := cb, m_Params := p } := by
  have hq : (call r.m_Callback s).m_Requests =
      r :: (rest ++ [{ m_Callback := cb, m_Params := p }]) := by
    rw [hpush]; simp [PushRequest, hs]
  rw [PopRequest_of_cons call s r rest hs]
  simp [hvalid, hq]

/-- Witness of C11: a pop on the queue A, B where the callback of A pushes a
new request. -/
theorem reentrant_push_lands_behind_witness :
    (sampleFailed [sampleA, sampleB]).m_Requests = sampleA :: [sampleB] ∧
    sampleA.m_Callback.IsValid = true ∧
    (PopRequest (pushesAgain (.bound 9) []) (sampleFailed [sampleA, sampleB])).self.m_Requests =
      [sampleB] ++ [{ m_Callback := .bound 9, m_Params := [] }] ∧
    (PopRequest (pushesAgain (.bound 9) []) (sampleFailed [sampleA, sampleB])).invoked =
      [sampleA.m_Callback] ∧
    (PopRequest (pushesAgain (.bound 9) [])
        (sampleFailed [sampleA, sampleB])).self.m_Requests.take [sampleB].length = [sampleB] ∧
    (PopRequest (pushesAgain (.bound 9) [])
        (sampleFailed [sampleA, sampleB])).self.m_Requests.getLast? =
      some { m_Callback := .bound 9, m_Params := [] } :=
  ⟨rfl, rfl, reentrant_push_lands_behind (pushesAgain (.bound 9) [])
    (sampleFailed [sampleA, sampleB]) sampleA [sampleB] (.bound 9) [] rfl rfl rfl⟩

/-- C12 (clone isolation): an instance copy-constructed from any source,
whatever the state and the queue of the source, has the enabled flag and the
name of the source, state INACTIVE and an empty queue, so that `HaveRequests`
is false; the source is left as it was. -/
theorem clone_isolation (a_Copy : ISkill) (g : GUID) :
    (copyConstruct a_Copy g).copy.m_bEnabled = a_Copy.m_bEnabled ∧
    (copyConstruct a_Copy g).copy.m_SkillName = a_Copy.m_SkillName ∧
    (copyConstruct a_Copy g).copy.m_eState = SkillState.INACTIVE ∧
    (copyConstruct a_Copy g).copy.m_Requests = [] ∧
    (HaveRequests (copyConstruct a_Copy g).copy).ret = false ∧
    (copyConstruct a_Copy g).source = a_Copy := by
  simp [copyConstruct, copyCtor, HaveRequests, ActiveRequest]

/-- C13 (default construction): a default-constructed skill is enabled, has an
empty name, is INACTIVE and has an empty request queue. -/
theorem default_construction (g : GUID) :
    (ctor g).m_bEnabled = true ∧
    (ctor g).m_SkillName = "" ∧
    (ctor g).m_eState = SkillState.INACTIVE ∧
    (ctor g).m_Requests = [] := by
  simp [ctor]

/-- C14 (fresh identity): both constructors give the instance the identifier
that `NewGUID` yields, whatever the source of a copy carries; that identifier
was not handed out before, so a copy of an instance whose identifier was handed
out earlier differs from it in identity, and so does a copy made of an
instance right after its construction. -/
theorem fresh_identity (u : GuidSupply) (a_Copy : ISkill) :
    (ctor (NewGUID u).1).m_GUID = (NewGUID u).1 ∧
    (copyCtor a_Copy (NewGUID u).1).m_GUID = (NewGUID u).1 ∧
    (∀ g, (copyCtor a_Copy g).m_GUID = g) ∧
    ¬ u.Issued (NewGUID u).1 ∧
    (NewGUID u).2.Issued (NewGUID u).1 ∧
    (u.Issued a_Copy.m_GUID → (copyCtor a_Copy (NewGUID u).1).m_GUID ≠ a_Copy.m_GUID) ∧
    (copyCtor (ctor (NewGUID u).1) (NewGUID (NewGUID u).2).1).m_GUID ≠
      (ctor (NewGUID u).1).m_GUID := by
  refine ⟨rfl, rfl, fun _ => rfl, ?_, ?_, ?_, ?_⟩
  · simp [GuidSupply.Issued, NewGUID]
  · simp [GuidSupply.Issued, NewGUID]
  · intro h
    simp only [GuidSupply.Issued] at h
    simp only [copyCtor, NewGUID]
    exact Nat.ne_of_gt h
  · simp [copyCtor, ctor, NewGUID]

/-- Witness of C14: a copy of an instance with identifier 3, made when five
identifiers have been handed out. -/
theorem fresh_identity_witness :
    GuidSupply.Issued { issued := 5 } (sampleActive [sampleA]).m_GUID ∧
    (copyCtor (sampleActive [sampleA]) (NewGUID { issued := 5 }).1).m_GUID ≠
      (sampleActive [sampleA]).m_GUID :=
  ⟨by decide, (fresh_identity { issued := 5 } (sampleActive [sampleA])).2.2.2.2.2.1 (by decide)⟩

/-- C15 (round-trip persistence): `Deserialize` applied to the record that
`Serialize` produced from any instance gives an instance with the enabled flag
and the name of that instance; state and queue are those of the instance
deserialized into, so a freshly constructed one is INACTIVE with an empty
queue whatever state and requests the source had. -/
theorem roundtrip_persistence (src target : ISkill) (json : JsonRecord) (g : GUID) :
    (Deserialize target (Serialize src json)).m_bEnabled = src.m_bEnabled ∧
    (Deserialize target (Serialize src json)).m_SkillName = src.m_SkillName ∧
    (Deserialize target (Serialize src json)).m_eState = target.m_eState ∧
    (Deserialize target (Serialize src json)).m_Requests = target.m_Requests ∧
    (Deserialize (ctor g) (Serialize src json)).m_bEnabled = src.m_bEnabled ∧
    (Deserialize (ctor g) (Serialize src json)).m_SkillName = src.m_SkillName ∧
    (Deserialize (ctor g) (Serialize src json)).m_eState = SkillState.INACTIVE ∧
    (Deserialize (ctor g) (Serialize src json)).m_Requests = [] := by
  have hn : JsonRecord.get (Serialize src json) "skillName" =
      some (JsonScalar.string src.m_SkillName) := by
    simp [Serialize, JsonRecord.get, JsonRecord.set]
  have he : JsonRecord.get (Serialize src json) "enabled" =
      some (JsonScalar.bool src.m_bEnabled) := by
    simp [Serialize, JsonRecord.get, JsonRecord.set]
  have key : ∀ t : ISkill, Deserialize t (Serialize src json) =
      { t with m_bEnabled := src.m_bEnabled, m_SkillName := src.m_SkillName } := by
    intro t
    simp [Deserialize, hn, he]
  simp [key, ctor]

/-- C16 (submission order under interleaving): for every sequence of
`PushRequest` and `PopRequest` calls performed from an empty queue, with
callbacks that are not re-entrant, the delegates invoked are exactly, in order,
the valid delegates among the first `k` requests pushed, where `k` is the number
of pops made on a non-empty queue; `k` never exceeds the number of requests
pushed, the requests after the first `k` are what the queue still holds, and
the invoked delegates follow the order of submission, none served twice. -/
theorem submission_order_under_interleaving (call : Invoke) (hcall : NonReentrant call)
    (s : ISkill) (hs : s.m_Requests = []) (ops : List Op)
    (hops : ∀ op ∈ ops, op.isPushOrPop = true) :
    (run call s ops).invoked =
        validCallbacks ((pushedRequests ops).take (popsOnNonEmpty call s ops)) ∧
    popsOnNonEmpty call s ops ≤ (pushedRequests ops).length ∧
    (run call s ops).self.m_Requests =
        (pushedRequests ops).drop (popsOnNonEmpty call s ops) ∧
    (run call s ops).invoked.Sublist ((pushedRequests ops).map (fun r => r.m_Callback)) := by
  obtain ⟨h1, h2, h3⟩ := run_push_pop call hcall ops hops s
  rw [hs] at h1 h2 h3
  simp only [List.nil_append] at h1 h2 h3
  refine ⟨h1, h3, h2, ?_⟩
  rw [h1]
  exact ((List.filter_sublist _).trans (List.take_sublist _ _)).map _

/-- Witness of C16: the sample interleaving on a fresh instance makes three
pops on a non-empty queue and invokes the delegates 1 and 2, the unset one
in between being skipped. -/
theorem submission_order_under_interleaving_witness :
    (ctor 7).m_Requests = [] ∧
    (∀ op ∈ sampleInterleaving, op.isPushOrPop = true) ∧
    (run marksCompleted (ctor 7) sampleInterleaving).invoked =
      validCallbacks ((pushedRequests sampleInterleaving).take
        (popsOnNonEmpty marksCompleted (ctor 7) sampleInterleaving)) ∧
    popsOnNonEmpty marksCompleted (ctor 7) sampleInterleaving ≤
      (pushedRequests sampleInterleaving).length ∧
    (run marksCompleted (ctor 7) sampleInterleaving).self.m_Requests =
      (pushedRequests sampleInterleaving).drop
        (popsOnNonEmpty marksCompleted (ctor 7) sampleInterleaving) ∧
    (run marksCompleted (ctor 7) sampleInterleaving).invoked.Sublist
      ((pushedRequests sampleInterleaving).map (fun r => r.m_Callback)) :=
  ⟨rfl, by decide,
    submission_order_under_interleaving marksCompleted (fun _ _ => rfl) (ctor 7) rfl
      sampleInterleaving (by decide)⟩

/-- With callbacks that leave the queued entries in place, whatever operations
are performed, the delegates invoked are, in order, valid delegates of requests
that were queued at the start or submitted since, by an operation or by a
callback; each such request accounts for one invocation at most. -/
theorem run_invoked_sublist_admitted (call : Invoke) (hcall : AppendsOnly call)
    (ops : List Op) (s : ISkill) :
    (run call s ops).invoked.Sublist
      (validCallbacks (s.m_Requests ++ admittedRequests call s ops)) := by
  induction ops generalizing s with
  | nil => simp [run]
  | cons op ops ih =>
    cases op with
    | push cb p =>
      obtain ⟨hq, hi⟩ := step_push_requests call s cb p
      have h := ih (step call s (Op.push cb p)).self
      rw [hq] at h
      simp only [run, admittedRequests, admittedBy, hi]
      simpa using h
    | pop =>
      cases hs : s.m_Requests with
      | nil =>
        have hstep : step call s Op.pop = { ret := Value.bool false, self := s, invoked := [] } := by
          simp [step, PopRequest_of_nil call s hs]
        have h := ih s
        rw [hs] at h
        simp only [run, admittedRequests, admittedBy, pushedByCallback, hstep, hs]
        simpa using h
      | cons r rest =>
        obtain ⟨hq, hi⟩ := PopRequest_appendsOnly call hcall s r rest hs
        have hself : (step call s Op.pop).self = (PopRequest call s).self := rfl
        have hinv : (step call s Op.pop).invoked = (PopRequest call s).invoked := rfl
        have h := ih (step call s Op.pop).self
        rw [hself, hq, List.append_assoc] at h
        simp only [run, admittedRequests, admittedBy, hinv, hi, hself, List.cons_append,
          validCallbacks_cons]
        exact List.Sublist.append (List.Sublist.refl _) h
    | popAll =>
      have hself : (step call s Op.popAll).self.m_Requests = [] := by simp [step, PopAllRequests]
      have hinv : (step call s Op.popAll).invoked = [] := by
        simp [step, PopAllRequests, foldl_delete]
      have h := ih (step call s Op.popAll).self
      rw [hself] at h
      simp only [run, admittedRequests, admittedBy, hinv, validCallbacks_append,
        List.nil_append] at h ⊢
      exact List.sublist_append_of_sublist_right h
    | haveRequests =>
      have hself : (step call s Op.haveRequests).self = s := by
        simp only [step, HaveRequests, ActiveRequest]; split <;> rfl
      have hinv : (step call s Op.haveRequests).invoked = [] := by
        simp only [step, HaveRequests, ActiveRequest]; split <;> rfl
      have h := ih s
      simp only [run, admittedRequests, admittedBy, hinv, hself, List.nil_append]
      exact h
    | activeRequest =>
      have hself : (step call s Op.activeRequest).self = s := by
        simp only [step, ActiveRequest]; split <;> rfl
      have hinv : (step call s Op.activeRequest).invoked = [] := by
        simp only [step, ActiveRequest]; split <;> rfl
      have h := ih s
      simp only [run, admittedRequests, admittedBy, hinv, hself, List.nil_append]
      exact h

/-- C17 (abort silence is permanent): with callbacks that leave the queued
entries in place (they may push), the delegates invoked by `PopAllRequests` and
by any sequence of operations after it are, in order, valid delegates of
requests submitted after the drain, by a `PushRequest` call of the sequence or
by a callback, each such request accounting for one invocation at most; no
invocation is left for a request that was queued at the time of the drain.
The drain itself invokes nothing, nothing is invoked while nothing is
submitted, what happens after the drain is the same whatever requests were
drained, and with callbacks that are not re-entrant the requests submitted are
those the sequence pushes. -/
theorem abort_silence_permanent (call : Invoke) (hcall : AppendsOnly call) (s : ISkill)
    (ops : List Op) :
    (run call s (Op.popAll :: ops)).invoked.Sublist
      (validCallbacks (admittedRequests call (PopAllRequests s).self ops)) ∧
    (PopAllRequests s).invoked = [] ∧
    (PopAllRequests s).self.m_Requests = [] ∧
    (admittedRequests call (PopAllRequests s).self ops = [] →
      (run call s (Op.popAll :: ops)).invoked = []) ∧
    (∀ q : List Request,
      (run call { s with m_Requests := q } (Op.popAll :: ops)).invoked =
        (run call s (Op.popAll :: ops)).invoked) ∧
    (NonReentrant call →
      (run call s (Op.popAll :: ops)).invoked.Sublist
        (validCallbacks (pushedRequests ops))) := by
  have hq : (PopAllRequests s).self.m_Requests = [] := by simp [PopAllRequests]
  have hi : (PopAllRequests s).invoked = [] := by simp [PopAllRequests, foldl_delete]
  have hrun : (run call s (Op.popAll :: ops)).invoked =
      (run call (PopAllRequests s).self ops).invoked := by
    simp [run, step, hi]
  have hsub : (run call s (Op.popAll :: ops)).invoked.Sublist
      (validCallbacks (admittedRequests call (PopAllRequests s).self ops)) := by
    have h := run_invoked_sublist_admitted call hcall ops (PopAllRequests s).self
    rw [hq] at h
    rw [hrun]
    simpa using h
  refine ⟨hsub, hi, hq, ?_, ?_, ?_⟩
  · intro hnone
    have h := hsub
    rw [hnone] at h
    simpa [validCallbacks] using h
  · intro q
    simp [run, step, PopAllRequests, foldl_delete]
  · intro hnr
    have h := run_invoked_sublist call hnr ops (PopAllRequests s).self
    rw [hq] at h
    rw [hrun]
    simpa using h

/-- Witness of C17: A and B are drained and the sample sequence of all five
operations follows, with callbacks that push a request with delegate 9 when
they run; the delegates invoked are 6 and 9, both of requests submitted after
the drain, and neither 1 nor 2. -/
theorem abort_silence_permanent_witness :
    AppendsOnly (pushesAgain (.bound 9) []) ∧
    (run (pushesAgain (.bound 9) []) (sampleFailed [sampleA, sampleB])
        (Op.popAll :: sampleMixed)).invoked.Sublist
      (validCallbacks (admittedRequests (pushesAgain (.bound 9) [])
        (PopAllRequests (sampleFailed [sampleA, sampleB])).self sampleMixed)) ∧
    (run (pushesAgain (.bound 9) []) (sampleFailed [sampleA, sampleB])
        (Op.popAll :: sampleMixed)).invoked = [.bound 6, .bound 9] ∧
    validCallbacks (admittedRequests (pushesAgain (.bound 9) [])
        (PopAllRequests (sampleFailed [sampleA, sampleB])).self sampleMixed) =
      [.bound 5, .bound 6, .bound 9, .bound 9] :=
  ⟨fun _ _ => ⟨_, rfl⟩,
    (abort_silence_permanent (pushesAgain (.bound 9) []) (fun _ _ => ⟨_, rfl⟩)
      (sampleFailed [sampleA, sampleB]) sampleMixed).1,
    by decide, by decide⟩

/-- C18 (the base never drives the state machine): with callbacks that do not
touch the instance, each of the five queue operations, and every sequence of
them, leaves state, enabled flag and name unchanged; a freshly constructed
instance is therefore still INACTIVE after any such sequence, and the pop of
the last request empties the queue without changing the state. -/
theorem base_never_drives_state (call : Invoke) (hcall : Untouched call) (s : ISkill)
    (op : Op) (ops : List Op) (g : GUID) :
    ((step call s op).self.m_eState = s.m_eState ∧
      (step call s op).self.m_bEnabled = s.m_bEnabled ∧
      (step call s op).self.m_SkillName = s.m_SkillName) ∧
    ((run call s ops).self.m_eState = s.m_eState ∧
      (run call s ops).self.m_bEnabled = s.m_bEnabled ∧
      (run call s ops).self.m_SkillName = s.m_SkillName) ∧
    GetState (run call (ctor g) ops).self = SkillState.INACTIVE ∧
    (∀ r, s.m_Requests = [r] →
      (PopRequest call s).self.m_Requests = [] ∧
      (PopRequest call s).self.m_eState = s.m_eState) := by
  obtain ⟨h1, h2, h3, _⟩ := step_frame call hcall s op
  obtain ⟨i1, i2, i3, _⟩ := run_frame call hcall ops s
  refine ⟨⟨h1, h2, h3⟩, ⟨i1, i2, i3⟩, ?_, ?_⟩
  · rw [GetState, (run_frame call hcall ops (ctor g)).1]
    rfl
  · intro r hr
    have hnr : NonReentrant call := fun d x => by rw [hcall d x]
    refine ⟨(PopRequest_nonReentrant call hnr s r [] hr).1, ?_⟩
    exact (step_frame call hcall s Op.pop).1

/-- Witness of C18: the pop of the only request of an ACTIVE skill, and the
sample sequence of all five operations on it and on a fresh instance. -/
theorem base_never_drives_state_witness :
    Untouched idle ∧
    (step idle (sampleActive [sampleA]) Op.pop).self.m_eState =
      (sampleActive [sampleA]).m_eState ∧
    (run idle (sampleActive [sampleA]) sampleMixed).self.m_eState =
      (sampleActive [sampleA]).m_eState ∧
    GetState (run idle (ctor 7) sampleMixed).self = SkillState.INACTIVE ∧
    (PopRequest idle (sampleActive [sampleA])).self.m_Requests = [] ∧
    (PopRequest idle (sampleActive [sampleA])).self.m_eState = SkillState.ACTIVE :=
  ⟨fun _ _ => rfl,
    (base_never_drives_state idle (fun _ _ => rfl) (sampleActive [sampleA]) Op.pop
      sampleMixed 7).1.1,
    (base_never_drives_state idle (fun _ _ => rfl) (sampleActive [sampleA]) Op.pop
      sampleMixed 7).2.1.1,
    (base_never_drives_state idle (fun _ _ => rfl) (sampleActive [sampleA]) Op.pop
      sampleMixed 7).2.2.1,
    (base_never_drives_state idle (fun _ _ => rfl) (sampleActive [sampleA]) Op.pop
      sampleMixed 7).2.2.2 sampleA rfl⟩

/-- C19 (start signal under re-entrancy): when the queue holds exactly one
request `r` with a valid delegate whose callback calls `PushRequest(cb, p)`
once on the instance, that inner call, made on the instance as `PopRequest`
hands it over, returns false, and the enclosing `PopRequest` returns true and
leaves the new request as the only entry; a callback that notes the value of
its inner call shows false after the pop. -/
theorem start_signal_under_reentrancy (call : Invoke) (s : ISkill) (r : Request)
    (cb : SkillDelegate) (p : ParamsMap) (hs : s.m_Requests = [r])
    (hvalid : r.m_Callback.IsValid = true)
    (hpush : call r.m_Callback s = (s.PushRequest cb p).self) :
    (s.PushRequest cb p).ret = false ∧
    (PopRequest call s).ret = true ∧
    (PopRequest call s).invoked = [r.m_Callback] ∧
    (PopRequest call s).self.m_Requests = [{ m_Callback := cb, m_Params := p }] ∧
    (PopRequest (pushesAgainNoting cb p) s).self.m_bEnabled = false ∧
    (PopRequest (pushesAgainNoting cb p) s).ret = true := by
  refine ⟨?_, ?_, ?_, ?_, ?_, ?_⟩
  · simp [PushRequest, hs]
  · rw [PopRequest_of_cons call s r [] hs]
    simp [hvalid, hpush, PushRequest, hs]
  · rw [PopRequest_of_cons call s r [] hs]
    simp [hvalid]
  · rw [PopRequest_of_cons call s r [] hs]
    simp [hvalid, hpush, PushRequest, hs]
  · rw [PopRequest_of_cons (pushesAgainNoting cb p) s r [] hs]
    simp [hvalid, pushesAgainNoting, PushRequest, hs]
  · rw [PopRequest_of_cons (pushesAgainNoting cb p) s r [] hs]
    simp [hvalid, pushesAgainNoting, PushRequest, hs]

/-- Witness of C19: a pop on the queue holding only A, whose callback pushes a
new request. -/
theorem start_signal_under_reentrancy_witness :
    (sampleActive [sampleA]).m_Requests = [sampleA] ∧
    sampleA.m_Callback.IsValid = true ∧
    ((sampleActive [sampleA]).PushRequest (.bound 9) []).ret = false ∧
    (PopRequest (pushesAgain (.bound 9) []) (sampleActive [sampleA])).ret = true ∧
    (PopRequest (pushesAgain (.bound 9) []) (sampleActive [sampleA])).invoked =
      [sampleA.m_Callback] ∧
    (PopRequest (pushesAgain (.bound 9) []) (sampleActive [sampleA])).self.m_Requests =
      [{ m_Callback := .bound 9, m_Params := [] }] ∧
    (PopRequest (pushesAgainNoting (.bound 9) []) (sampleActive [sampleA])).self.m_bEnabled =
      false ∧
    (PopRequest (pushesAgainNoting (.bound 9) []) (sampleActive [sampleA])).ret = true :=
  ⟨rfl, rfl, start_signal_under_reentrancy (pushesAgain (.bound 9) [])
    (sampleActive [sampleA]) sampleA (.bound 9) [] rfl rfl rfl⟩

end ISkill
